import Mathlib

set_option linter.unusedVariables false
set_option linter.unnecessarySeqFocus false

/-!
Shallow embedding of the logcolor entry decoder.

Bytes are modelled as `List Char`.  The Go regexp engine is external to the
repository; it is modelled abstractly by a pair of functions
`find : List Char → Option (Nat × Nat)` (FindIndex: leftmost match span) and
`findSub : List Char → Option (List Int)` (FindSubmatchIndex: overall span
followed by capture-group spans, -1 for a group that did not participate).
The structural guarantees that a self-contained leftmost regex matcher
provides are collected in `MatcherWF` below and assumed as hypotheses where a
claim needs them.
-/

/-- Model of the Go `Entry` struct: `Header`, `Message` and the raw submatch
index slice stored by `EntryDecoder.Decode`. -/
structure Entry where
  Header : List Char
  Message : List Char
  «matches» : List Int
deriving DecidableEq, Repr

/-- The entry built by the body of `EntryDecoder.Decode` from a matched token
`b` with submatch index slice `m`:
`e.Header = string(b[m[0]:m[1]])`, `e.Message = string(b[m[1]:])`,
`e.matches = m`. -/
def mkEntry (b : List Char) (m : List Int) : Entry :=
  { Header := (b.take (m.getD 1 0).toNat).drop (m.getD 0 0).toNat
    Message := b.drop (m.getD 1 0).toNat
    «matches» := m }

/-- The Go constant `bufio.MaxScanTokenSize` (64 * 1024), the maximum token
size used by `EntryDecoder.split` under default settings. -/
def MaxScanTokenSize : Nat := 65536

/-- The normal-matching part of `EntryDecoder.split` (the code from the
`onNoMatch` closure to the end of the function), reached when
`truncatedLastEntry` is false or has just been cleared by a match at offset 0.
Returns `(advance, token, truncatedLastEntry')`. -/
def splitNormal (find : List Char → Option (Nat × Nat)) (maxTok : Nat)
    (data : List Char) (atEOF : Bool) : Nat × Option (List Char) × Bool :=
  let onNoMatch : Nat × Option (List Char) × Bool :=
    if atEOF = true then (data.length, some data, false)
    else if maxTok ≤ data.length then (data.length, some data, true)
    else (0, none, false)
  match find data with
  | none => onNoMatch
  | some i =>
    match find (data.drop i.2) with
    | none => onNoMatch
    | some j => (i.2 + j.1, some (data.take (i.2 + j.1)), false)

/-- Model of `EntryDecoder.split`.  The decoder state `truncatedLastEntry` is
passed in explicitly and the updated value is returned as the last component;
the Go function returns `(advance, token, err)` with `err` always nil. -/
def split (find : List Char → Option (Nat × Nat)) (maxTok : Nat)
    (trunc : Bool) (data : List Char) (atEOF : Bool) :
    Nat × Option (List Char) × Bool :=
  if atEOF = true ∧ data = [] then (0, none, trunc)
  else if trunc = true then
    match find data with
    | none => (data.length, none, true)
    | some i =>
      if 0 < i.1 then (i.1, none, false)
      else splitNormal find maxTok data atEOF
  else splitNormal find maxTok data atEOF

/-- Model of the `bufio.Scanner` loop driving `EntryDecoder.split`:
`buf` is the buffered-but-unconsumed window, `chunks` the list of reads the
underlying reader will deliver (end-of-input is discovered, as in Go, by a
read after the last chunk), `eofKnown` records whether the scanner has seen
the reader report EOF, `trunc` is the decoder's `truncatedLastEntry` flag and
`evT` accumulates whether the flag was ever set during the run.  Returns the
emitted tokens and the `evT` accumulator, or `none` if `fuel` runs out. -/
def runScanAux (find : List Char → Option (Nat × Nat)) (maxTok : Nat) :
    Nat → Bool → Bool → Bool → List Char → List (List Char) →
    Option (List (List Char) × Bool)
  | 0, _, _, _, _, _ => none
  | fuel + 1, eofKnown, trunc, evT, buf, chunks =>
    if buf = [] ∧ eofKnown = false then
      match chunks with
      | [] => runScanAux find maxTok fuel true trunc evT buf []
      | c :: cs => runScanAux find maxTok fuel false trunc evT (buf ++ c) cs
    else
      match split find maxTok trunc buf eofKnown with
      | (adv, some t, trunc') =>
        (runScanAux find maxTok fuel eofKnown trunc' (evT || trunc')
            (buf.drop adv) chunks).map (fun p => (t :: p.1, p.2))
      | (adv, none, trunc') =>
        if 0 < adv then
          runScanAux find maxTok fuel eofKnown trunc' (evT || trunc')
            (buf.drop adv) chunks
        else if eofKnown = true then some ([], evT || trunc')
        else
          match chunks with
          | [] => runScanAux find maxTok fuel true trunc' (evT || trunc') buf []
          | c :: cs =>
            runScanAux find maxTok fuel false trunc' (evT || trunc') (buf ++ c) cs

/-- A whole scanning run from the initial decoder state (empty buffer, EOF not
seen, `truncatedLastEntry = false`). -/
def runScan (find : List Char → Option (Nat × Nat)) (maxTok fuel : Nat)
    (chunks : List (List Char)) : Option (List (List Char) × Bool) :=
  runScanAux find maxTok fuel false false false [] chunks

/-- Errors of the Go io layer as they appear in this program. -/
inductive GoErr where
  | eof
  | unexpectedEOF
  | source (code : Nat)
deriving DecidableEq, Repr

/-- Result of one `EntryDecoder.Decode` call. -/
inductive DecodeRes where
  | ok
  | eofEnd
  | fail (er : GoErr)
deriving DecidableEq, Repr

/-- Model of one `EntryDecoder.Decode(e)` call over the remaining token
stream: tokens that do not re-match are skipped; when the scanner is done,
`scanner.Err()` (`endErr`) is returned if set, else `io.EOF`.  The passed
entry is returned updated exactly when the result is `ok`. -/
def decodeOne (findSub : List Char → Option (List Int)) :
    List (List Char) → Option GoErr → Entry → Entry × DecodeRes
  | [], some er, e => (e, DecodeRes.fail er)
  | [], none, e => (e, DecodeRes.eofEnd)
  | b :: rest, endErr, e =>
    match findSub b with
    | none => decodeOne findSub rest endErr e
    | some m => (mkEntry b m, DecodeRes.ok)

/-- Repeated `Decode` calls over a finished token stream: the sequence of
entries produced (tokens with no match are skipped, as in the Decode loop). -/
def decodeAll (findSub : List Char → Option (List Int)) :
    List (List Char) → List Entry
  | [] => []
  | b :: rest =>
    match findSub b with
    | none => decodeAll findSub rest
    | some m => mkEntry b m :: decodeAll findSub rest

/-- Concatenation of `Header ++ Message` over a list of entries, in order. -/
def entriesText : List Entry → List Char
  | [] => []
  | e :: rest => e.Header ++ e.Message ++ entriesText rest

/-- Structural guarantees of a self-contained leftmost regex matcher, used as
hypotheses by theorems quantifying over the header pattern: matches are
nonempty and in bounds, the leftmost match is stable under extending the
span to the right, under cutting the span after the match, and under
starting the span at the match start; and `FindSubmatchIndex` agrees with
`FindIndex` on the overall span. -/
structure MatcherWF (find : List Char → Option (Nat × Nat))
    (findSub : List Char → Option (List Int)) : Prop where
  bounds : ∀ {d : List Char} {s e : Nat}, find d = some (s, e) →
    s < e ∧ e ≤ d.length
  extendStable : ∀ {d : List Char} {s e : Nat} (t : List Char),
    find d = some (s, e) → find (d ++ t) = some (s, e)
  takeStable : ∀ {d : List Char} {s e k : Nat},
    find d = some (s, e) → e ≤ k → find (d.take k) = some (s, e)
  dropStable : ∀ {d : List Char} {s e : Nat},
    find d = some (s, e) → find (d.drop s) = some (0, e - s)
  subSome : ∀ {d : List Char} {s e : Nat}, find d = some (s, e) →
    ∃ ms, findSub d = some ((s : Int) :: (e : Int) :: ms)
  subNone : ∀ {d : List Char}, find d = none → findSub d = none

/-- A concrete matcher used to instantiate the general theorems: the pattern
that matches a single literal character `c` (leftmost occurrence). -/
def findChar (c : Char) : List Char → Option (Nat × Nat)
  | [] => none
  | x :: xs =>
    if x = c then some (0, 1)
    else (findChar c xs).map (fun p => (p.1 + 1, p.2 + 1))

/-- `FindSubmatchIndex` for the single-character pattern: no capture groups,
just the overall span. -/
def findSubChar (c : Char) (d : List Char) : Option (List Int) :=
  (findChar c d).map (fun p => [(p.1 : Int), (p.2 : Int)])

/-- `'0' ≤ c ≤ '9'`. -/
def isDigit (c : Char) : Bool := decide ('0' ≤ c) && decide (c ≤ '9')

/-- Whether the span starts with `E` followed by four digits. -/
def headerHereE : List Char → Bool
  | 'E' :: d1 :: d2 :: d3 :: d4 :: _ =>
    isDigit d1 && isDigit d2 && isDigit d3 && isDigit d4
  | _ => false

/-- Leftmost-match search for the multiline-anchored pattern `^E\d{4}`:
`bol` records whether the current position starts the span or follows a
newline. -/
def findEAux : Bool → Nat → List Char → Option (Nat × Nat)
  | _, _, [] => none
  | bol, pos, x :: xs =>
    if bol && headerHereE (x :: xs) then some (pos, pos + 5)
    else findEAux (x = '\n') (pos + 1) xs

/-- `FindIndex` for the concrete-scenario pattern `^E\d{4}` (multiline). -/
def findE (d : List Char) : Option (Nat × Nat) := findEAux true 0 d

/-- `FindSubmatchIndex` for `^E\d{4}` with the whole match as the header
capture. -/
def findSubE (d : List Char) : Option (List Int) :=
  (findE d).map (fun p => [(p.1 : Int), (p.2 : Int)])

/-- Outcome of the `select` in `bufferedReader.Read` while it waits on the
single-slot handshake: either the producer fires the wake-up after writing
`delivered` bytes, or the idle timeout elapses. -/
inductive Wait where
  | wake (delivered : List Char)
  | timeout
deriving DecidableEq, Repr

/-- Model of `bytes.Buffer.Read` into a destination of capacity `cap`:
returns the bytes read, the remaining buffer and the error (`io.EOF` exactly
when the buffer is empty and the destination is nonempty). -/
def bufRead (buf : List Char) (cap : Nat) :
    List Char × List Char × Option GoErr :=
  if buf = [] then
    if cap = 0 then ([], [], none) else ([], [], some GoErr.eof)
  else (buf.take cap, buf.drop cap, none)

/-- One iteration of the loop in `bufferedReader.Read`, up to the `select`:
`rerr` is the terminal error recorded by the background goroutine (held fixed
during the call), `buf` the shared byte buffer, `acc` the bytes accumulated
into the caller's destination so far and `err` the local named return
variable.  Mirrors the Go loop body: the recorded error is checked first
(and, as in the source, the *local* `err` is what gets returned there), then
the buffer is read; `Sum.inl` is an early return, `Sum.inr (buf', acc')`
means the iteration reached the `select` and will wait. -/
def readStep (rerr : Option GoErr) (cap : Nat) (buf acc : List Char)
    (err : Option GoErr) : (List Char × Option GoErr) ⊕ (List Char × List Char) :=
  match rerr with
  | some _ => Sum.inl (acc, err)
  | none =>
    match bufRead buf cap with
    | (got, _, none) => Sum.inl (acc ++ got, none)
    | (got, buf', some e) =>
      if e = GoErr.eof then Sum.inr (buf', acc ++ got)
      else Sum.inl (acc ++ got, some e)

/-- The loop of `bufferedReader.Read`, driven by the outcomes of successive
waits (`events`): reaching the `select` with a timeout — or with no further
event ever arriving — returns the accumulated bytes with the local `err`,
which at that point is the `io.EOF` produced by the empty buffer read; a
wake-up appends the freshly written bytes to the buffer and iterates. -/
def readLoop (rerr : Option GoErr) (cap : Nat) :
    List Char → List Wait → List Char → Option GoErr → List Char × Option GoErr
  | buf, [], acc, err =>
    (match readStep rerr cap buf acc err with
     | Sum.inl r => r
     | Sum.inr (_, acc') => (acc', some GoErr.eof))
  | buf, Wait.timeout :: _, acc, err =>
    (match readStep rerr cap buf acc err with
     | Sum.inl r => r
     | Sum.inr (_, acc') => (acc', some GoErr.eof))
  | buf, Wait.wake d :: rest, acc, err =>
    match readStep rerr cap buf acc err with
    | Sum.inl r => r
    | Sum.inr (buf', acc') =>
      readLoop rerr cap (buf' ++ d) rest acc' (some GoErr.eof)

/-- One call to `bufferedReader.Read` with a fresh destination of capacity
`cap`: the local `err` starts as the zero value nil. -/
def bufferedRead (rerr : Option GoErr) (buf : List Char) (cap : Nat)
    (events : List Wait) : List Char × Option GoErr :=
  readLoop rerr cap buf events [] none

/-- `io.Copy`'s resulting error given the terminal read error of the source:
a source that ends with `io.EOF` makes `io.Copy` return a nil error. -/
def ioCopyErr (srcErr : GoErr) : Option GoErr :=
  if srcErr = GoErr.eof then none else some srcErr

/-- The recording done by the goroutine in `NewBufferedReader`:
`if err == io.EOF { br.err = io.ErrUnexpectedEOF } else { br.err = err }`. -/
def recordErr (copyErr : Option GoErr) : Option GoErr :=
  if copyErr = some GoErr.eof then some GoErr.unexpectedEOF else copyErr

/-- Model of the `LogEntry` struct: the embedded `Entry`, the pattern
(represented by its `SubexpNames()` list) and the `subexpNames` cache map
(an association list, most recent binding first). -/
structure LogEntry where
  toEntry : Entry
  Pattern : List String
  subexpNames : List (String × Nat)
deriving DecidableEq, Repr

/-- Lookup in the `subexpNames` cache map. -/
def lookupCache : List (String × Nat) → String → Option Nat
  | [], _ => none
  | (k, v) :: rest, capture =>
    if k = capture then some v else lookupCache rest capture

/-- Index of the first occurrence of `capture` in the pattern's
`SubexpNames()` list (the `for i, n := range ...` scan). -/
def firstIdx : List String → String → Option Nat
  | [], _ => none
  | n :: rest, capture =>
    if n = capture then some 0 else (firstIdx rest capture).map (· + 1)

/-- Model of `LogEntry.findSubexp`: consult the cache, else scan the
pattern's group names, caching a hit; returns `(idx, ok)` and the updated
`LogEntry` (Go mutates the receiver's map). -/
def findSubexp (le : LogEntry) (capture : String) : Int × Bool × LogEntry :=
  match lookupCache le.subexpNames capture with
  | some idx => ((idx : Int), true, le)
  | none =>
    match firstIdx le.Pattern capture with
    | some i =>
      ((i : Int), true,
        { le with subexpNames := (capture, i) :: le.subexpNames })
    | none => (-1, false, le)

/-- Go slice expression `s[a:b]` on a string: defined when
`0 ≤ a ≤ b ≤ len s`, a runtime panic (`none`) otherwise. -/
def goSlice (s : List Char) (a b : Int) : Option (List Char) :=
  if 0 ≤ a ∧ a ≤ b ∧ b ≤ (s.length : Int) then
    some ((s.take b.toNat).drop a.toNat)
  else none

/-- Result of `LogEntry.Match`: the captured text, the no-such-capture-group
error, or a runtime panic from an out-of-range index or slice. -/
inductive MatchResult where
  | ok (text : List Char)
  | noSuchCapture
  | outOfRange
deriving DecidableEq, Repr

/-- Model of `LogEntry.Match`: resolve the capture name, then return
`le.Header[le.«matches»[2*idx]:le.«matches»[2*idx+1]]`, with out-of-range list
indexing or string slicing modelled as `outOfRange`. -/
def LogEntryMatch (le : LogEntry) (capture : String) : MatchResult × LogEntry :=
  match findSubexp le capture with
  | (_, false, le') => (MatchResult.noSuchCapture, le')
  | (idx, true, le') =>
    match le'.toEntry.«matches»[(2 * idx).toNat]?,
        le'.toEntry.«matches»[(2 * idx + 1).toNat]? with
    | some a, some b =>
      match goSlice le'.toEntry.Header a b with
      | some s => (MatchResult.ok s, le')
      | none => (MatchResult.outOfRange, le')
    | _, _ => (MatchResult.outOfRange, le')

/-- `capture ∉ names` means the linear scan of `SubexpNames()` finds nothing. -/
theorem firstIdx_eq_none (names : List String) (capture : String)
    (h : capture ∉ names) : firstIdx names capture = none := by
  induction names with
  | nil => rfl
  | cons n rest ih =>
    simp only [List.mem_cons, not_or] at h
    simp [firstIdx, Ne.symm h.1, ih h.2]

/-- `findSubexp` only updates the cache: the embedded entry and the pattern
are untouched. -/
theorem findSubexp_state (le : LogEntry) (c : String) :
    ((findSubexp le c).2.2).toEntry = le.toEntry
      ∧ ((findSubexp le c).2.2).Pattern = le.Pattern := by
  unfold findSubexp
  rcases hl : lookupCache le.subexpNames c with _ | idx
  · rcases hf : firstIdx le.Pattern c with _ | i <;> simp
  · simp

/-- `LogEntry.Match` returns whatever state `findSubexp` produced. -/
theorem LogEntryMatch_state (le : LogEntry) (c : String) :
    (LogEntryMatch le c).2 = (findSubexp le c).2.2 := by
  unfold LogEntryMatch
  rcases h : findSubexp le c with ⟨idx, ok, le'⟩
  cases ok
  · rfl
  · rcases h2 : le'.toEntry.«matches»[(2 * idx).toNat]? with _ | a <;>
      rcases h3 : le'.toEntry.«matches»[(2 * idx + 1).toNat]? with _ | b <;>
      simp only [h2, h3] <;> try rfl
    rcases h4 : goSlice le'.toEntry.Header a b with _ | s <;> simp [h4]

/-- C8: a named-capture lookup for a name that is in neither the cache nor the
pattern's group-name list returns the no-such-capture error, leaving the
entry (and hence the decode stream) untouched; a name present in the
pattern's group names resolves to its first index, which is cached, and the
subsequent lookup is served from the cache with the same result; and no
lookup ever modifies the decoded entry or the pattern. -/
theorem C8_named_capture (le : LogEntry) (capture : String)
    (hc : lookupCache le.subexpNames capture = none) :
    (capture ∉ le.Pattern →
      LogEntryMatch le capture = (MatchResult.noSuchCapture, le))
    ∧ (∀ i : Nat, firstIdx le.Pattern capture = some i →
        findSubexp le capture =
          ((i : Int), true, { le with subexpNames := (capture, i) :: le.subexpNames })
        ∧ findSubexp { le with subexpNames := (capture, i) :: le.subexpNames } capture =
          ((i : Int), true, { le with subexpNames := (capture, i) :: le.subexpNames }))
    ∧ (∀ name : String, ((LogEntryMatch le name).2).toEntry = le.toEntry
        ∧ ((LogEntryMatch le name).2).Pattern = le.Pattern) := by
  refine ⟨fun hnm => ?_, fun i hf => ?_, fun name => ?_⟩
  · unfold LogEntryMatch findSubexp
    simp [hc, firstIdx_eq_none le.Pattern capture hnm]
  · constructor
    · unfold findSubexp
      simp [hc, hf]
    · unfold findSubexp
      simp [lookupCache]
  · rw [LogEntryMatch_state]
    exact findSubexp_state le name

/-- C10: `Decode` assigns the passed entry's fields only on success; whenever
it returns end-of-stream or a scanner error, the entry is returned exactly as
it was passed in. -/
theorem C10_entry_unchanged (findSub : List Char → Option (List Int))
    (tokens : List (List Char)) (endErr : Option GoErr) (e : Entry)
    (h : (decodeOne findSub tokens endErr e).2 ≠ DecodeRes.ok) :
    (decodeOne findSub tokens endErr e).1 = e := by
  induction tokens with
  | nil => cases endErr <;> rfl
  | cons b rest ih =>
    rcases hf : findSub b with _ | m
    · have : decodeOne findSub (b :: rest) endErr e = decodeOne findSub rest endErr e := by
        simp [decodeOne, hf]
      rw [this] at h ⊢
      exact ih h
    · exact absurd (by simp [decodeOne, hf]) h

/-- Witness for C10 at a concrete input: a token with no header match, end of
stream; the entry passed in comes back unchanged. -/
theorem C10_entry_unchanged_witness :
    (decodeOne (findSubChar 'H') [['x']] none ⟨['q'], ['r'], [3]⟩).1
      = ⟨['q'], ['r'], [3]⟩ :=
  C10_entry_unchanged (findSubChar 'H') [['x']] none ⟨['q'], ['r'], [3]⟩ (by decide)

/-- C5 (code bug): when the source closes cleanly, `io.Copy` returns a nil
error, so the goroutine records nil — `io.ErrUnexpectedEOF` is never
recorded — and the next read just waits out the idle timeout and returns
`io.EOF`, indistinguishable from the timeout case; and a recorded non-EOF
source error makes `Read` return a nil error (the local `err`, not `r.err`),
so it is not surfaced verbatim either. -/
theorem C5_unexpected_close_code_bug :
    recordErr (ioCopyErr GoErr.eof) = none
    ∧ bufferedRead (recordErr (ioCopyErr GoErr.eof)) [] 1 [Wait.timeout]
        = ([], some GoErr.eof)
    ∧ some GoErr.eof ≠ some GoErr.unexpectedEOF
    ∧ bufferedRead (some (GoErr.source 7)) [] 1 [Wait.timeout] = ([], none) := by
  decide

/-- C6 counterexample: with a recorded terminal error and three buffered
bytes, `Read` returns no bytes at all (and a nil error), so "if buffered
bytes exist it returns them immediately" fails as stated. -/
theorem C6_read_counterexample :
    bufferedRead (some (GoErr.source 7)) ['a', 'b', 'c'] 3 [Wait.timeout]
        = ([], none)
    ∧ ([] : List Char) ≠ ['a', 'b', 'c'] := by
  decide

/-- C6 (amended): provided no terminal condition has been recorded, a read
with buffered bytes returns them immediately without entering the timed wait
(the wait-outcome list is irrelevant); an empty buffer whose wait times out
yields `io.EOF`; and bytes delivered by a wake-up before the timeout are
returned. -/
theorem C6_read_amended (buf d : List Char) (cap : Nat) (events : List Wait) :
    (buf ≠ [] → bufferedRead none buf cap events = (buf.take cap, none))
    ∧ (0 < cap →
        bufferedRead none [] cap (Wait.timeout :: events) = ([], some GoErr.eof))
    ∧ (0 < cap → d ≠ [] →
        bufferedRead none [] cap (Wait.wake d :: events) = (d.take cap, none)) := by
  refine ⟨fun h => ?_, fun hcap => ?_, fun hcap hd => ?_⟩
  · rcases events with _ | ⟨w, rest⟩
    · simp [bufferedRead, readLoop, readStep, bufRead, h]
    · cases w <;> simp [bufferedRead, readLoop, readStep, bufRead, h]
  · simp [bufferedRead, readLoop, readStep, bufRead, Nat.pos_iff_ne_zero.mp hcap]
  · rcases events with _ | ⟨w, rest⟩
    · simp [bufferedRead, readLoop, readStep, bufRead,
        Nat.pos_iff_ne_zero.mp hcap, hd]
    · cases w <;>
        simp [bufferedRead, readLoop, readStep, bufRead,
          Nat.pos_iff_ne_zero.mp hcap, hd]

/-- Witness for C6 (amended) at concrete inputs. -/
theorem C6_read_witness :
    bufferedRead none ['a', 'b', 'c'] 2 [Wait.timeout] = (['a', 'b'], none)
    ∧ bufferedRead none [] 4 [Wait.timeout] = ([], some GoErr.eof)
    ∧ bufferedRead none [] 4 [Wait.wake ['z'], Wait.timeout] = (['z'], none) :=
  ⟨(C6_read_amended ['a', 'b', 'c'] [] 2 [Wait.timeout]).1 (by decide),
   (C6_read_amended [] [] 4 [Wait.timeout]).2.1 (by decide),
   (C6_read_amended [] ['z'] 4 [Wait.timeout]).2.2 (by decide) (by decide)⟩

/-- C7 counterexample: with `truncatedLastEntry = true` and a header match at
offset 1 > 0, `split` clears the flag (returns it as `false`), contrary to
the claim that a positive-offset match leaves it set. -/
theorem C7_flag_counterexample :
    split (findChar 'H') 65536 true ['x', 'H', 'a', 'b'] false = (1, none, false)
    ∧ false ≠ true := by
  decide

/-- C7 (amended): once set, the truncated flag stays true exactly until a
header match is found anywhere in the window: with no match the whole window
is dropped without emitting and the flag stays true; a match at a positive
offset clears the flag and advances to the match start without emitting; a
match at offset 0 clears the flag and normal tokenization resumes on the
same window. -/
theorem C7_flag_amended (find : List Char → Option (Nat × Nat)) (maxTok : Nat)
    (data : List Char) (atEOF : Bool) (hne : atEOF = true → data ≠ []) :
    (find data = none →
      split find maxTok true data atEOF = (data.length, none, true))
    ∧ (∀ i0 i1, find data = some (i0, i1) → 0 < i0 →
        split find maxTok true data atEOF = (i0, none, false))
    ∧ (∀ i1, find data = some (0, i1) →
        split find maxTok true data atEOF = splitNormal find maxTok data atEOF) := by
  have hcond : ¬(atEOF = true ∧ data = []) := by
    rintro ⟨h1, h2⟩; exact hne h1 h2
  refine ⟨fun hnone => ?_, fun i0 i1 hf hpos => ?_, fun i1 hf => ?_⟩
  · simp [split, hcond, hnone]
  · simp [split, hcond, hf, hpos]
  · simp [split, hcond, hf]

/-- Witness for C7 (amended) at concrete inputs. -/
theorem C7_flag_witness :
    split (findChar 'H') 65536 true ['a', 'x'] false = (2, none, true)
    ∧ split (findChar 'H') 65536 true ['x', 'H'] false = (1, none, false)
    ∧ split (findChar 'H') 65536 true ['H', 'x'] false
        = splitNormal (findChar 'H') 65536 ['H', 'x'] false :=
  ⟨(C7_flag_amended (findChar 'H') 65536 ['a', 'x'] false (by decide)).1 (by decide),
   (C7_flag_amended (findChar 'H') 65536 ['x', 'H'] false (by decide)).2.1 1 2
     (by decide) (by decide),
   (C7_flag_amended (findChar 'H') 65536 ['H', 'x'] false (by decide)).2.2 1
     (by decide)⟩

/-- C3: when the window has grown to the maximum token size without the
next-entry boundary having been found (no header match at all, or no second
match after the first), `split` emits the entire window as one truncated
token and sets the truncated flag; afterwards, while the flag is set, a
window with no match is dropped whole without emitting, and a match at a
positive offset advances to the match start without emitting, after which
normal tokenization resumes at that match. -/
theorem C3_truncation_step (find : List Char → Option (Nat × Nat))
    (maxTok : Nat) (data : List Char) :
    (maxTok ≤ data.length →
      (find data = none
        ∨ ∃ i0 i1, find data = some (i0, i1) ∧ find (data.drop i1) = none) →
      split find maxTok false data false = (data.length, some data, true))
    ∧ (find data = none →
        split find maxTok true data false = (data.length, none, true))
    ∧ (∀ i0 i1, find data = some (i0, i1) → 0 < i0 →
        split find maxTok true data false = (i0, none, false))
    ∧ (∀ i1, find data = some (0, i1) →
        split find maxTok true data false = splitNormal find maxTok data false) := by
  refine ⟨fun hlen hcase => ?_, fun hnone => ?_,
    fun i0 i1 hf hpos => ?_, fun i1 hf => ?_⟩
  · rcases hcase with hnone | ⟨i0, i1, hf, hj⟩
    · simp [split, splitNormal, hnone, hlen]
    · simp [split, splitNormal, hf, hj, hlen]
  · simp [split, hnone]
  · simp [split, hf, hpos]
  · simp [split, hf]

/-- Witness for C3 at concrete inputs (window size 2, max token size 2). -/
theorem C3_truncation_witness :
    split (findChar 'H') 2 false ['a', 'x'] false = (2, some ['a', 'x'], true)
    ∧ split (findChar 'H') 2 true ['a', 'x'] false = (2, none, true)
    ∧ split (findChar 'H') 2 true ['x', 'H'] false = (1, none, false) :=
  ⟨(C3_truncation_step (findChar 'H') 2 ['a', 'x']).1 (by decide)
      (Or.inl (by decide)),
   (C3_truncation_step (findChar 'H') 2 ['a', 'x']).2.1 (by decide),
   (C3_truncation_step (findChar 'H') 2 ['x', 'H']).2.2.1 1 2 (by decide)
     (by decide)⟩

/-- C4: the concrete scenario: scanning `"E0001 hello\nE0002 world\n"` with
the `^E\d{4}` header pattern under the default maximum token size yields
exactly two tokens with no truncation, and decoding them yields exactly the
two entries `("E0001", " hello\n")` and `("E0002", " world\n")`. -/
theorem C4_concrete_scenario :
    (runScan findE 65536 16 ["E0001 hello\nE0002 world\n".data]).map
        (fun p => ((decodeAll findSubE p.1).map fun e => (e.Header, e.Message), p.2))
      = some ([("E0001".data, " hello\n".data),
               ("E0002".data, " world\n".data)], false) := by
  decide

/-- C1 counterexample: the one-byte input `"x"` contains no header match; the
scan completes with no truncation and emits the whole input as a final
token, but `Decode` yields no entries at all, so the concatenation of
`Header ++ Message` over all emitted entries is empty and does not
reproduce the input. -/
theorem C1_lossless_counterexample :
    runScan (findChar 'H') 65536 6 [['x']] = some ([['x']], false)
    ∧ entriesText (decodeAll (findSubChar 'H') [['x']]) = []
    ∧ List.flatten [['x']] ≠ ([] : List Char) := by
  decide

/-- C9: `LogEntry.Match` slices `Header` with the token-relative submatch
indices.  For an entry whose overall match starts at token offset 0
(`m[0] = 0`, so `Header` is the token's first `m[1]` bytes) and whose
requested group participated with a span inside the match, the slice is in
bounds and returns exactly the group's capture (the token bytes `[a, bb)`);
but for an entry whose match starts at a positive offset, and for a group
that did not participate (indices -1), the slice bounds fall outside
`Header` and the lookup is out of range. -/
theorem C9_match_slicing :
    (∀ (b : List Char) (m : List Int) (names : List String)
        (cache : List (String × Nat)) (capture : String) (i e a bb : Nat),
      lookupCache cache capture = some i →
      m.getD 0 0 = 0 → m.getD 1 0 = (e : Int) → e ≤ b.length →
      m[2 * i]? = some ((a : Nat) : Int) →
      m[2 * i + 1]? = some ((bb : Nat) : Int) →
      a ≤ bb → bb ≤ e →
      LogEntryMatch ⟨mkEntry b m, names, cache⟩ capture =
        (MatchResult.ok ((b.take bb).drop a), ⟨mkEntry b m, names, cache⟩))
    ∧ LogEntryMatch ⟨mkEntry ['x', 'H'] [1, 2, 1, 2], ["", "g"], []⟩ "g" =
        (MatchResult.outOfRange,
          ⟨mkEntry ['x', 'H'] [1, 2, 1, 2], ["", "g"], [("g", 1)]⟩)
    ∧ LogEntryMatch ⟨mkEntry ['H', 'i'] [0, 1, -1, -1], ["", "g"], []⟩ "g" =
        (MatchResult.outOfRange,
          ⟨mkEntry ['H', 'i'] [0, 1, -1, -1], ["", "g"], [("g", 1)]⟩) := by
  refine ⟨?_, by decide, by decide⟩
  intro b m names cache capture i e a bb hcache hm0 hm1 he h2i h2i1 hab hbe
  have hton : (2 * (i : Int)).toNat = 2 * i := by omega
  have hton1 : (2 * (i : Int) + 1).toNat = 2 * i + 1 := by omega
  have hm0' : (m[0]?.getD 0) = (0 : Int) := by
    rw [← List.getD_eq_getElem?_getD]; exact hm0
  have hm1' : (m[1]?.getD 0) = ((e : Nat) : Int) := by
    rw [← List.getD_eq_getElem?_getD]; exact hm1
  have hHeader : (mkEntry b m).Header = b.take e := by
    simp [mkEntry, hm0', hm1']
  have hlen : ((b.take e).length : Int) = (e : Int) := by
    simp [List.length_take, Nat.min_eq_left he]
  have hslice : goSlice (b.take e) ((a : Nat) : Int) ((bb : Nat) : Int)
      = some ((b.take bb).drop a) := by
    rw [goSlice, if_pos]
    · congr 1
      rw [Int.toNat_natCast, Int.toNat_natCast, List.take_take,
        Nat.min_eq_left hbe]
    · refine ⟨by positivity, by exact_mod_cast hab, ?_⟩
      rw [hlen]
      exact_mod_cast hbe
  have hmm : (mkEntry b m).«matches» = m := rfl
  unfold LogEntryMatch findSubexp
  simp only [hcache]
  simp only [hton, hton1, hmm, h2i, h2i1, hHeader, hslice]

/-- Witness for C9 at a concrete entry whose match starts at token offset 0
and whose group participated: the lookup returns the capture. -/
theorem C9_match_slicing_witness :
    LogEntryMatch ⟨mkEntry ['H', 'i'] [0, 1, 0, 1], ["", "g"], [("g", 1)]⟩ "g"
      = (MatchResult.ok ['H'],
        ⟨mkEntry ['H', 'i'] [0, 1, 0, 1], ["", "g"], [("g", 1)]⟩) :=
  C9_match_slicing.1 ['H', 'i'] [0, 1, 0, 1] ["", "g"] [("g", 1)] "g" 1 1 0 1
    (by decide) (by decide) (by decide) (by decide) (by decide) (by decide)
    (by decide) (by decide)

/-- Matches of the single-character pattern are nonempty and in bounds. -/
theorem findChar_bounds (c : Char) : ∀ (d : List Char) (s e : Nat),
    findChar c d = some (s, e) → s < e ∧ e ≤ d.length := by
  intro d
  induction d with
  | nil => intro s e h; simp [findChar] at h
  | cons x xs ih =>
    intro s e h
    by_cases hx : x = c
    · simp only [findChar, if_pos hx, Option.some.injEq, Prod.mk.injEq] at h
      rw [List.length_cons]
      omega
    · simp only [findChar, if_neg hx, Option.map_eq_some'] at h
      obtain ⟨⟨s', e'⟩, hfs, heq⟩ := h
      obtain ⟨h1, h2⟩ := Prod.mk.injEq .. ▸ heq
      have := ih s' e' hfs
      rw [List.length_cons]
      omega

/-- The leftmost single-character match is stable under extending the span. -/
theorem findChar_extendStable (c : Char) : ∀ (d : List Char) (s e : Nat)
    (t : List Char), findChar c d = some (s, e) →
    findChar c (d ++ t) = some (s, e) := by
  intro d
  induction d with
  | nil => intro s e t h; simp [findChar] at h
  | cons x xs ih =>
    intro s e t h
    by_cases hx : x = c
    · simp only [findChar, if_pos hx, Option.some.injEq] at h
      simpa [findChar, hx] using h
    · simp only [findChar, if_neg hx, Option.map_eq_some'] at h
      obtain ⟨⟨s', e'⟩, hfs, heq⟩ := h
      have h1 : s' + 1 = s := by simpa using congrArg Prod.fst heq
      have h2 : e' + 1 = e := by simpa using congrArg Prod.snd heq
      subst h1
      subst h2
      have hrec := ih s' e' t hfs
      simp [findChar, hx, hrec]

/-- The leftmost single-character match is stable under cutting the span
anywhere at or after the match end. -/
theorem findChar_takeStable (c : Char) : ∀ (d : List Char) (s e k : Nat),
    findChar c d = some (s, e) → e ≤ k →
    findChar c (d.take k) = some (s, e) := by
  intro d
  induction d with
  | nil => intro s e k h _; simp [findChar] at h
  | cons x xs ih =>
    intro s e k h hk
    have hb := findChar_bounds c (x :: xs) s e h
    cases k with
    | zero => omega
    | succ k' =>
      by_cases hx : x = c
      · simp only [findChar, if_pos hx, Option.some.injEq] at h
        rw [List.take_succ_cons]
        simp only [findChar, if_pos hx, Option.some.injEq]
        exact h
      · simp only [findChar, if_neg hx, Option.map_eq_some'] at h
        obtain ⟨⟨s', e'⟩, hfs, heq⟩ := h
        have h1 : s' + 1 = s := by simpa using congrArg Prod.fst heq
        have h2 : e' + 1 = e := by simpa using congrArg Prod.snd heq
        subst h1
        subst h2
        rw [List.take_succ_cons]
        have hrec := ih s' e' k' hfs (by omega)
        simp [findChar, hx, hrec]

/-- The leftmost single-character match is stable under starting the span at
the match start. -/
theorem findChar_dropStable (c : Char) : ∀ (d : List Char) (s e : Nat),
    findChar c d = some (s, e) → findChar c (d.drop s) = some (0, e - s) := by
  intro d
  induction d with
  | nil => intro s e h; simp [findChar] at h
  | cons x xs ih =>
    intro s e h
    by_cases hx : x = c
    · simp only [findChar, if_pos hx, Option.some.injEq] at h
      have h1 : (0 : Nat) = s := by simpa using congrArg Prod.fst h
      have h2 : (1 : Nat) = e := by simpa using congrArg Prod.snd h
      subst h1
      subst h2
      simp [findChar, hx]
    · simp only [findChar, if_neg hx, Option.map_eq_some'] at h
      obtain ⟨⟨s', e'⟩, hfs, heq⟩ := h
      have h1 : s' + 1 = s := by simpa using congrArg Prod.fst heq
      have h2 : e' + 1 = e := by simpa using congrArg Prod.snd heq
      subst h1
      subst h2
      rw [List.drop_succ_cons]
      have hrec := ih s' e' hfs
      simpa [Nat.succ_sub_succ] using hrec

/-- The single-character matcher satisfies all the structural guarantees
assumed of the header pattern. -/
theorem findCharWF (c : Char) : MatcherWF (findChar c) (findSubChar c) where
  bounds h := findChar_bounds c _ _ _ h
  extendStable t h := findChar_extendStable c _ _ _ t h
  takeStable h hk := findChar_takeStable c _ _ _ _ h hk
  dropStable h := findChar_dropStable c _ _ _ h
  subSome h := ⟨[], by simp [findSubChar, h]⟩
  subNone h := by simp [findSubChar, h]

/-- Unfolding lemma: a scan step with fuel left. -/
theorem runScanAux_succ (find : List Char → Option (Nat × Nat))
    (maxTok fuel : Nat) (eofKnown trunc evT : Bool) (buf : List Char)
    (chunks : List (List Char)) :
    runScanAux find maxTok (fuel + 1) eofKnown trunc evT buf chunks =
      if buf = [] ∧ eofKnown = false then
        match chunks with
        | [] => runScanAux find maxTok fuel true trunc evT buf []
        | c :: cs => runScanAux find maxTok fuel false trunc evT (buf ++ c) cs
      else
        match split find maxTok trunc buf eofKnown with
        | (adv, some t, trunc') =>
          (runScanAux find maxTok fuel eofKnown trunc' (evT || trunc')
              (buf.drop adv) chunks).map (fun p => (t :: p.1, p.2))
        | (adv, none, trunc') =>
          if 0 < adv then
            runScanAux find maxTok fuel eofKnown trunc' (evT || trunc')
              (buf.drop adv) chunks
          else if eofKnown = true then some ([], evT || trunc')
          else
            match chunks with
            | [] => runScanAux find maxTok fuel true trunc' (evT || trunc') buf []
            | c :: cs =>
              runScanAux find maxTok fuel false trunc' (evT || trunc') (buf ++ c) cs
      := rfl

/-- Once the ever-truncated accumulator is set, a completed scan reports it:
it is monotone along the run. -/
theorem runScanAux_evT (find : List Char → Option (Nat × Nat)) (maxTok : Nat) :
    ∀ (fuel : Nat) (eofKnown trunc : Bool) (buf : List Char)
      (chunks : List (List Char)) (r : List (List Char) × Bool),
      runScanAux find maxTok fuel eofKnown trunc true buf chunks = some r →
      r.2 = true := by
  intro fuel
  induction fuel with
  | zero => intro _ _ _ _ r h; simp [runScanAux] at h
  | succ fuel ih =>
    intro eofKnown trunc buf chunks r h
    rw [runScanAux_succ] at h
    simp only [Bool.true_or] at h
    split at h
    · split at h
      · exact ih _ _ _ _ _ h
      · exact ih _ _ _ _ _ h
    · split at h
      · rcases Option.map_eq_some'.mp h with ⟨p, hp, hr⟩
        have hp2 := ih _ _ _ _ p hp
        rw [← hr]
        exact hp2
      · split at h
        · exact ih _ _ _ _ _ h
        · split at h
          · injection h with h'
            exact (congrArg Prod.snd h').symm
          · split at h
            · exact ih _ _ _ _ _ h
            · exact ih _ _ _ _ _ h

/-- A token whose re-match starts at offset 0 contributes exactly its own
bytes to the concatenated entry text. -/
theorem entriesText_cons_match (findSub : List Char → Option (List Int))
    (b : List Char) (e : Nat) (ms : List Int) (ts : List (List Char))
    (hsub : findSub b = some ((0 : Int) :: (e : Int) :: ms)) :
    entriesText (decodeAll findSub (b :: ts))
      = b ++ entriesText (decodeAll findSub ts) := by
  simp only [decodeAll, hsub, entriesText, mkEntry, List.getD_cons_zero,
    List.getD_cons_succ, Int.toNat_natCast, Int.toNat_zero, List.drop_zero]
  rw [List.take_append_drop]

/-- A token with no re-match contributes nothing. -/
theorem entriesText_cons_none (findSub : List Char → Option (List Int))
    (b : List Char) (ts : List (List Char)) (hsub : findSub b = none) :
    entriesText (decodeAll findSub (b :: ts))
      = entriesText (decodeAll findSub ts) := by
  simp [decodeAll, hsub]

/-- Main invariant behind the lossless-reconstruction claim: a completed scan
with no truncation, starting from a stream that is empty or begins with a
header match at offset 0, produces tokens whose decoded `Header ++ Message`
concatenation reproduces the remaining stream exactly. -/
theorem scanConcatAux (find : List Char → Option (Nat × Nat))
    (findSub : List Char → Option (List Int)) (wf : MatcherWF find findSub)
    (maxTok : Nat) :
    ∀ (fuel : Nat) (eofKnown : Bool) (buf : List Char)
      (chunks : List (List Char)) (tokens : List (List Char)),
      (eofKnown = true → chunks = []) →
      runScanAux find maxTok fuel eofKnown false false buf chunks
        = some (tokens, false) →
      (buf ++ chunks.flatten = []
        ∨ ∃ e, find (buf ++ chunks.flatten) = some (0, e)) →
      entriesText (decodeAll findSub tokens) = buf ++ chunks.flatten := by
  intro fuel
  induction fuel with
  | zero => intro _ _ _ _ _ h _; simp [runScanAux] at h
  | succ fuel ih =>
    intro eofKnown buf chunks tokens hek h hinv
    rw [runScanAux_succ] at h
    by_cases hbe : buf = [] ∧ eofKnown = false
    · rw [if_pos hbe] at h
      obtain ⟨hb, he⟩ := hbe
      subst hb
      subst he
      cases chunks with
      | nil =>
        have hrec := ih true [] [] tokens (fun _ => rfl) h (Or.inl rfl)
        simpa using hrec
      | cons c cs =>
        have hinv' : ([] ++ c) ++ cs.flatten = []
            ∨ ∃ e, find (([] ++ c) ++ cs.flatten) = some (0, e) := by
          rcases hinv with h0 | ⟨e, he⟩
          · left; simpa using h0
          · right; exact ⟨e, by simpa using he⟩
        have hrec := ih false ([] ++ c) cs tokens (by simp) h hinv'
        rw [hrec]
        simp
    · rw [if_neg hbe] at h
      by_cases heof : eofKnown = true
      · have hcs : chunks = [] := hek heof
        subst hcs
        subst heof
        by_cases hb : buf = []
        · subst hb
          have hsplit : split find maxTok false [] true = (0, none, false) := by
            simp [split]
          simp only [hsplit, lt_self_iff_false, if_false, if_pos rfl,
            Bool.false_or] at h
          injection h with h'
          have htok : tokens = [] := (congrArg Prod.fst h').symm
          subst htok
          simp [decodeAll, entriesText]
        · obtain ⟨e0, hf⟩ : ∃ e, find buf = some (0, e) := by
            rcases hinv with h0 | ⟨e, he⟩
            · exact absurd (by simpa using h0) hb
            · exact ⟨e, by simpa using he⟩
          rcases hj : find (buf.drop e0) with _ | ⟨j0, j1⟩
          · have hsplit : split find maxTok false buf true
                = (buf.length, some buf, false) := by
              simp [split, splitNormal, hb, hf, hj]
            simp only [hsplit, Bool.false_or] at h
            rcases Option.map_eq_some'.mp h with ⟨⟨ts, evb⟩, hp, hr⟩
            have htok : tokens = buf :: ts := by
              simpa using (congrArg Prod.fst hr).symm
            have hev : evb = false := by simpa using congrArg Prod.snd hr
            subst htok
            subst hev
            rw [List.drop_length] at hp
            have hrec := ih true [] [] ts (fun _ => rfl) hp (Or.inl rfl)
            obtain ⟨ms, hsub⟩ := wf.subSome hf
            rw [entriesText_cons_match findSub buf e0 ms ts hsub, hrec]
            simp
          · have hsplit : split find maxTok false buf true
                = (e0 + j0, some (buf.take (e0 + j0)), false) := by
              simp [split, splitNormal, hb, hf, hj]
            simp only [hsplit, Bool.false_or] at h
            rcases Option.map_eq_some'.mp h with ⟨⟨ts, evb⟩, hp, hr⟩
            have htok : tokens = buf.take (e0 + j0) :: ts := by
              simpa using (congrArg Prod.fst hr).symm
            have hev : evb = false := by simpa using congrArg Prod.snd hr
            subst htok
            subst hev
            have hbe0 := wf.bounds hf
            have hbj := wf.bounds hj
            rw [List.length_drop] at hbj
            have hlen : e0 + j0 ≤ buf.length := by omega
            have h4 := wf.dropStable hj
            rw [List.drop_drop] at h4
            have hrec := ih true (buf.drop (e0 + j0)) [] ts (fun _ => rfl) hp
              (Or.inr ⟨j1 - j0, by simpa using h4⟩)
            obtain ⟨ms, hsub⟩ := wf.subSome (wf.takeStable hf (Nat.le_add_right e0 j0))
            rw [entriesText_cons_match findSub _ e0 ms ts hsub, hrec]
            simp only [List.flatten_nil, List.append_nil]
            rw [List.take_append_drop]
      · have heof' : eofKnown = false := by
          cases eofKnown
          · rfl
          · exact absurd rfl heof
        subst heof'
        have hb : buf ≠ [] := fun hb0 => hbe ⟨hb0, rfl⟩
        obtain ⟨e0, hfr⟩ : ∃ e, find (buf ++ chunks.flatten) = some (0, e) := by
          rcases hinv with h0 | he
          · exact absurd (List.append_eq_nil.mp h0).1 hb
          · exact he
        have hreadStep : ∀ trunc', (match chunks with
              | [] => runScanAux find maxTok fuel true trunc' (false || trunc') buf []
              | c :: cs =>
                runScanAux find maxTok fuel false trunc' (false || trunc') (buf ++ c) cs)
              = some (tokens, false) →
            trunc' = false →
            entriesText (decodeAll findSub tokens) = buf ++ chunks.flatten := by
          intro trunc' hm ht
          subst ht
          cases chunks with
          | nil =>
            have hrec := ih true buf [] tokens (fun _ => rfl) (by simpa using hm)
              (Or.inr ⟨e0, by simpa using hfr⟩)
            exact hrec
          | cons c cs =>
            have hrec := ih false (buf ++ c) cs tokens (by simp) (by simpa using hm)
              (Or.inr ⟨e0, by rw [List.append_assoc]; simpa using hfr⟩)
            rw [hrec, List.append_assoc]
            simp
        rcases hfb : find buf with _ | ⟨s, e⟩
        · by_cases hmax : maxTok ≤ buf.length
          · have hsplit : split find maxTok false buf false
                = (buf.length, some buf, true) := by
              simp [split, splitNormal, hfb, hmax]
            simp only [hsplit, Bool.false_or] at h
            rcases Option.map_eq_some'.mp h with ⟨p, hp, hr⟩
            have hev := runScanAux_evT find maxTok fuel false true _ _ p hp
            have : p.2 = false := by simpa using congrArg Prod.snd hr
            rw [this] at hev
            exact absurd hev (by simp)
          · have hsplit : split find maxTok false buf false = (0, none, false) := by
              simp [split, splitNormal, hfb, hmax, hb]
            simp only [hsplit, lt_self_iff_false, if_false,
              Bool.false_or] at h
            exact hreadStep false (by simpa using h) rfl
        · have hfb' : find (buf ++ chunks.flatten) = some (s, e) :=
            wf.extendStable _ hfb
          rw [hfr] at hfb'
          have hs0 : s = 0 ∧ e = e0 := by
            have h1 := congrArg (fun o => (Option.getD o (0, 0)).1) hfb'
            have h2 := congrArg (fun o => (Option.getD o (0, 0)).2) hfb'
            simp at h1 h2
            exact ⟨h1.symm, h2.symm⟩
          obtain ⟨hs, he0⟩ := hs0
          subst hs
          subst he0
          rcases hj : find (buf.drop e) with _ | ⟨j0, j1⟩
          · by_cases hmax : maxTok ≤ buf.length
            · have hsplit : split find maxTok false buf false
                  = (buf.length, some buf, true) := by
                simp [split, splitNormal, hfb, hj, hmax]
              simp only [hsplit, Bool.false_or] at h
              rcases Option.map_eq_some'.mp h with ⟨p, hp, hr⟩
              have hev := runScanAux_evT find maxTok fuel false true _ _ p hp
              have : p.2 = false := by simpa using congrArg Prod.snd hr
              rw [this] at hev
              exact absurd hev (by simp)
            · have hsplit : split find maxTok false buf false = (0, none, false) := by
                simp [split, splitNormal, hfb, hj, hmax, hb]
              simp only [hsplit, lt_self_iff_false, if_false,
                Bool.false_or] at h
              exact hreadStep false (by simpa using h) rfl
          · have hsplit : split find maxTok false buf false
                = (e + j0, some (buf.take (e + j0)), false) := by
              simp [split, splitNormal, hfb, hj, hb]
            simp only [hsplit, Bool.false_or] at h
            rcases Option.map_eq_some'.mp h with ⟨⟨ts, evb⟩, hp, hr⟩
            have htok : tokens = buf.take (e + j0) :: ts := by
              simpa using (congrArg Prod.fst hr).symm
            have hev : evb = false := by simpa using congrArg Prod.snd hr
            subst htok
            subst hev
            have hbe0 := wf.bounds hfb
            have hbj := wf.bounds hj
            rw [List.length_drop] at hbj
            have hlen : e + j0 ≤ buf.length := by omega
            have h2 : find ((buf.drop e) ++ chunks.flatten) = some (j0, j1) :=
              wf.extendStable _ hj
            rw [← List.drop_append_of_le_length hbe0.2] at h2
            have h4 := wf.dropStable h2
            rw [List.drop_drop, List.drop_append_of_le_length hlen] at h4
            have hrec := ih false (buf.drop (e + j0)) chunks ts (by simp) hp
              (Or.inr ⟨j1 - j0, h4⟩)
            obtain ⟨ms, hsub⟩ := wf.subSome (wf.takeStable hfb (Nat.le_add_right e j0))
            rw [entriesText_cons_match findSub _ e ms ts hsub, hrec,
              ← List.append_assoc, List.take_append_drop]

/-- C1 (amended): for every input byte stream that is empty or whose first
header match starts at byte offset 0, and every chunking of it, if the scan
completes with the truncated flag never set (no token reached the maximum
token size), then concatenating `Header ++ Message` of every entry emitted by
`Decode`, in emission order, reproduces the original input byte-for-byte —
entries are contiguous and non-overlapping slices of the input. -/
theorem C1_lossless_amended (find : List Char → Option (Nat × Nat))
    (findSub : List Char → Option (List Int)) (wf : MatcherWF find findSub)
    (maxTok fuel : Nat) (chunks tokens : List (List Char))
    (hscan : runScan find maxTok fuel chunks = some (tokens, false))
    (hstart : chunks.flatten = [] ∨ ∃ e, find chunks.flatten = some (0, e)) :
    entriesText (decodeAll findSub tokens) = chunks.flatten := by
  have h := scanConcatAux find findSub wf maxTok fuel false [] chunks tokens
    (by simp) hscan (by simpa using hstart)
  simpa using h

/-- Witness for C1 (amended) on the concrete stream `"HaHb"` with the
single-character header pattern `H`. -/
theorem C1_lossless_witness :
    entriesText (decodeAll (findSubChar 'H') [['H', 'a'], ['H', 'b']])
      = List.flatten [['H', 'a', 'H', 'b']] :=
  C1_lossless_amended (findChar 'H') (findSubChar 'H') (findCharWF 'H')
    65536 12 [['H', 'a', 'H', 'b']] [['H', 'a'], ['H', 'b']]
    (by decide) (Or.inr ⟨1, by decide⟩)

/-- Helper for the boundary claim: in a completed, never-truncated scan, when
the remaining stream has a first match ending at `e1` and a second match
starting `q0` bytes later, the first emitted token is exactly the stream's
first `e1 + q0` bytes. -/
theorem scanFirstAux (find : List Char → Option (Nat × Nat))
    (maxTok p1 e1 q0 q1 : Nat) :
    ∀ (wf0 : ∀ {d : List Char} {s e : Nat}, find d = some (s, e) →
        s < e ∧ e ≤ d.length)
      (wf1 : ∀ {d : List Char} {s e : Nat} (t : List Char),
        find d = some (s, e) → find (d ++ t) = some (s, e))
      (fuel : Nat) (eofKnown : Bool) (buf : List Char)
      (chunks tokens : List (List Char)),
      (eofKnown = true → chunks = []) →
      runScanAux find maxTok fuel eofKnown false false buf chunks
        = some (tokens, false) →
      find (buf ++ chunks.flatten) = some (p1, e1) →
      find ((buf ++ chunks.flatten).drop e1) = some (q0, q1) →
      tokens.head? = some ((buf ++ chunks.flatten).take (e1 + q0)) := by
  intro wf0 wf1 fuel
  induction fuel with
  | zero => intro _ _ _ _ _ h; simp [runScanAux] at h
  | succ fuel ih =>
    intro eofKnown buf chunks tokens hek h hm1 hm2
    rw [runScanAux_succ] at h
    by_cases hbe : buf = [] ∧ eofKnown = false
    · rw [if_pos hbe] at h
      obtain ⟨hb, he⟩ := hbe
      subst hb
      subst he
      cases chunks with
      | nil => exact ih true [] [] tokens (fun _ => rfl) h hm1 hm2
      | cons c cs =>
        have := ih false ([] ++ c) cs tokens (by simp) h (by simpa using hm1)
          (by simpa using hm2)
        simpa using this
    · rw [if_neg hbe] at h
      by_cases heof : eofKnown = true
      · have hcs : chunks = [] := hek heof
        subst hcs
        subst heof
        by_cases hb : buf = []
        · subst hb
          have h0 := wf0 hm1
          have hl : (([] : List Char) ++ List.flatten ([] : List (List Char))).length = 0 := rfl
          omega
        · have hfb : find buf = some (p1, e1) := by simpa using hm1
          have hj : find (buf.drop e1) = some (q0, q1) := by simpa using hm2
          have hsplit : split find maxTok false buf true
              = (e1 + q0, some (buf.take (e1 + q0)), false) := by
            simp [split, splitNormal, hb, hfb, hj]
          simp only [hsplit, Bool.false_or] at h
          rcases Option.map_eq_some'.mp h with ⟨⟨ts, evb⟩, hp, hr⟩
          have htok : tokens = buf.take (e1 + q0) :: ts := by
            simpa using (congrArg Prod.fst hr).symm
          subst htok
          simp
      · have heof' : eofKnown = false := by
          cases eofKnown
          · rfl
          · exact absurd rfl heof
        subst heof'
        have hb : buf ≠ [] := fun hb0 => hbe ⟨hb0, rfl⟩
        rcases hfb : find buf with _ | ⟨s, e⟩
        · by_cases hmax : maxTok ≤ buf.length
          · have hsplit : split find maxTok false buf false
                = (buf.length, some buf, true) := by
              simp [split, splitNormal, hfb, hmax]
            simp only [hsplit, Bool.false_or] at h
            rcases Option.map_eq_some'.mp h with ⟨p, hp, hr⟩
            have hev := runScanAux_evT find maxTok fuel false true _ _ p hp
            have hp2 : p.2 = false := by simpa using congrArg Prod.snd hr
            rw [hp2] at hev
            exact absurd hev (by simp)
          · have hsplit : split find maxTok false buf false = (0, none, false) := by
              simp [split, splitNormal, hfb, hmax, hb]
            simp only [hsplit, lt_self_iff_false, if_false, Bool.false_or] at h
            cases chunks with
            | nil => exact ih true buf [] tokens (fun _ => rfl) (by simpa using h) hm1 hm2
            | cons c cs =>
              have := ih false (buf ++ c) cs tokens (by simp) (by simpa using h)
                (by rw [List.append_assoc]; simpa using hm1)
                (by rw [List.append_assoc]; simpa using hm2)
              rw [List.append_assoc] at this
              simpa using this
        · have hfb' : find (buf ++ chunks.flatten) = some (s, e) :=
            wf1 _ hfb
          rw [hm1] at hfb'
          have hse : s = p1 ∧ e = e1 := by
            have h1 := congrArg (fun o => (Option.getD o (0, 0)).1) hfb'
            have h2 := congrArg (fun o => (Option.getD o (0, 0)).2) hfb'
            simp at h1 h2
            exact ⟨h1.symm, h2.symm⟩
          obtain ⟨hs, he⟩ := hse
          subst hs
          subst he
          have hbe1 := wf0 hfb
          rcases hj : find (buf.drop e) with _ | ⟨j0, j1⟩
          · by_cases hmax : maxTok ≤ buf.length
            · have hsplit : split find maxTok false buf false
                  = (buf.length, some buf, true) := by
                simp [split, splitNormal, hfb, hj, hmax]
              simp only [hsplit, Bool.false_or] at h
              rcases Option.map_eq_some'.mp h with ⟨p, hp, hr⟩
              have hev := runScanAux_evT find maxTok fuel false true _ _ p hp
              have hp2 : p.2 = false := by simpa using congrArg Prod.snd hr
              rw [hp2] at hev
              exact absurd hev (by simp)
            · have hsplit : split find maxTok false buf false = (0, none, false) := by
                simp [split, splitNormal, hfb, hj, hmax, hb]
              simp only [hsplit, lt_self_iff_false, if_false, Bool.false_or] at h
              cases chunks with
              | nil => exact ih true buf [] tokens (fun _ => rfl) (by simpa using h) hm1 hm2
              | cons c cs =>
                have := ih false (buf ++ c) cs tokens (by simp) (by simpa using h)
                  (by rw [List.append_assoc]; simpa using hm1)
                  (by rw [List.append_assoc]; simpa using hm2)
                rw [List.append_assoc] at this
                simpa using this
          · have hj' : find ((buf.drop e) ++ chunks.flatten) = some (j0, j1) :=
              wf1 _ hj
            rw [← List.drop_append_of_le_length hbe1.2, hm2] at hj'
            have hjq : j0 = q0 ∧ j1 = q1 := by
              have h1 := congrArg (fun o => (Option.getD o (0, 0)).1) hj'
              have h2 := congrArg (fun o => (Option.getD o (0, 0)).2) hj'
              simp at h1 h2
              exact ⟨h1.symm, h2.symm⟩
            obtain ⟨hq0, hq1⟩ := hjq
            subst hq0
            subst hq1
            have hbj := wf0 hj
            rw [List.length_drop] at hbj
            have hsplit : split find maxTok false buf false
                = (e + j0, some (buf.take (e + j0)), false) := by
              simp [split, splitNormal, hfb, hj, hb]
            simp only [hsplit, Bool.false_or] at h
            rcases Option.map_eq_some'.mp h with ⟨⟨ts, evb⟩, hp, hr⟩
            have htok : tokens = buf.take (e + j0) :: ts := by
              simpa using (congrArg Prod.fst hr).symm
            subst htok
            have hlen : e + j0 ≤ buf.length := by omega
            simp only [List.head?_cons, Option.some.injEq]
            rw [List.take_append_of_le_length hlen]

/-- C2: for an input whose first header match spans `[p1, e1)` and whose
second match (searched from `e1`, as the code does) starts `q0` bytes later —
so the first two matches start at `p1 < p2` with `p2 = e1 + q0` — if the scan
completes with no truncation then `Decode` emits a first entry whose `Header`
occupies input bytes `[p1, e1)` and whose `Header ++ Message` occupies input
bytes `[p1, p2)`: the header starts at `p1` and the message ends exactly one
byte before `p2`, the start offset of the second match. -/
theorem C2_boundary (find : List Char → Option (Nat × Nat))
    (findSub : List Char → Option (List Int)) (wf : MatcherWF find findSub)
    (maxTok fuel : Nat) (chunks tokens : List (List Char)) (p1 e1 q0 q1 : Nat)
    (hscan : runScan find maxTok fuel chunks = some (tokens, false))
    (hm1 : find chunks.flatten = some (p1, e1))
    (hm2 : find (chunks.flatten.drop e1) = some (q0, q1)) :
    ∃ (en : Entry) (rest : List Entry),
      decodeAll findSub tokens = en :: rest
      ∧ p1 < e1 + q0
      ∧ en.Header = (chunks.flatten.drop p1).take (e1 - p1)
      ∧ en.Header ++ en.Message = (chunks.flatten.take (e1 + q0)).drop p1 := by
  have hhead := scanFirstAux find maxTok p1 e1 q0 q1
    (fun h => wf.bounds h) (fun t h => wf.extendStable t h)
    fuel false [] chunks tokens (by simp) hscan
    (by simpa using hm1) (by simpa using hm2)
  obtain ⟨t, ts, htok⟩ : ∃ t ts, tokens = t :: ts := by
    cases tokens with
    | nil => simp at hhead
    | cons a b => exact ⟨a, b, rfl⟩
  subst htok
  have ht : t = chunks.flatten.take (e1 + q0) := by simpa using hhead
  subst ht
  have hfind_t : find (chunks.flatten.take (e1 + q0)) = some (p1, e1) :=
    wf.takeStable hm1 (Nat.le_add_right e1 q0)
  obtain ⟨ms, hsub⟩ := wf.subSome hfind_t
  refine ⟨mkEntry (chunks.flatten.take (e1 + q0)) ((p1 : Int) :: (e1 : Int) :: ms),
    decodeAll findSub ts, ?_, ?_, ?_, ?_⟩
  · simp [decodeAll, hsub]
  · have := wf.bounds hm1
    omega
  · simp only [mkEntry, List.getD_cons_zero, List.getD_cons_succ,
      Int.toNat_natCast]
    rw [List.take_take, Nat.min_eq_left (Nat.le_add_right e1 q0),
      List.drop_take]
  · simp only [mkEntry, List.getD_cons_zero, List.getD_cons_succ,
      Int.toNat_natCast]
    have hlt : e1 ≤ (chunks.flatten.take (e1 + q0)).length := (wf.bounds hfind_t).2
    have hp1e : p1 ≤ e1 := le_of_lt (wf.bounds hm1).1
    conv_rhs => rw [show (chunks.flatten.take (e1 + q0)).drop p1
      = ((chunks.flatten.take (e1 + q0)).take e1
          ++ (chunks.flatten.take (e1 + q0)).drop e1).drop p1 from by
        rw [List.take_append_drop]]
    rw [List.drop_append_of_le_length (by rw [List.length_take]; omega)]

/-- Witness for C2 on the concrete stream `"xHaHb"` with the
single-character header pattern `H`: matches at offsets 1 and 3, first entry
header `['H']` at offset 1, message ending one byte before offset 3. -/
theorem C2_boundary_witness :
    ∃ (en : Entry) (rest : List Entry),
      decodeAll (findSubChar 'H') [['x', 'H', 'a'], ['H', 'b']] = en :: rest
      ∧ 1 < 2 + 1
      ∧ en.Header = ((List.flatten [['x', 'H', 'a', 'H', 'b']]).drop 1).take (2 - 1)
      ∧ en.Header ++ en.Message
          = ((List.flatten [['x', 'H', 'a', 'H', 'b']]).take (2 + 1)).drop 1 :=
  C2_boundary (findChar 'H') (findSubChar 'H') (findCharWF 'H') 65536 12
    [['x', 'H', 'a', 'H', 'b']] [['x', 'H', 'a'], ['H', 'b']] 1 2 1 2
    (by decide) (by decide) (by decide)

/-- Witness for C8 at a concrete entry: the name `"nope"` is absent and the
lookup returns the no-such-capture error leaving the entry unchanged, while
the name `"g"` resolves to index 1 and is cached. -/
theorem C8_named_capture_witness :
    LogEntryMatch ⟨mkEntry ['H', 'i'] [0, 1, 0, 1], ["", "g"], []⟩ "nope"
      = (MatchResult.noSuchCapture,
        ⟨mkEntry ['H', 'i'] [0, 1, 0, 1], ["", "g"], []⟩)
    ∧ findSubexp ⟨mkEntry ['H', 'i'] [0, 1, 0, 1], ["", "g"], []⟩ "g"
      = ((1 : Int), true,
        ⟨mkEntry ['H', 'i'] [0, 1, 0, 1], ["", "g"], [("g", 1)]⟩) :=
  ⟨(C8_named_capture ⟨mkEntry ['H', 'i'] [0, 1, 0, 1], ["", "g"], []⟩ "nope"
      (by decide)).1 (by decide),
   ((C8_named_capture ⟨mkEntry ['H', 'i'] [0, 1, 0, 1], ["", "g"], []⟩ "g"
      (by decide)).2.1 1 (by decide)).1⟩
